import Mathlib

/-!
Shallow embedding of `src/Optimization_oran_fpa.py`.

The Python module defines two functions:

* `calculate_energy_total` — a pure objective evaluator summing four energy
  terms (class-E/class-C processing energy and class-E/class-C migration
  energy) over an association candidate `A_t`, a fixed secondary association
  matrix `B_t`, an unused matrix `S_t`, and scalar/vector workload parameters;
* `flower_pollination_algorithm` — a population-based stochastic optimizer
  that initializes a uniform population, then for `max_generations`
  generations perturbs every individual (global pollination toward the
  current best with probability 0.8, otherwise local pollination from two
  sampled individuals), clips each individual to the per-dimension bounds,
  re-evaluates fitness, updates the strictly-improving global best, and
  appends the best fitness to an internal convergence list; it returns the
  pair `(best_solution, best_fitness)`.

Python floats are modelled as rationals (the claims under study are algebraic
and structural, not about rounding).  The ambient `random` module is modelled
as an explicit stream: the n-th primitive call (`random.random`,
`random.gauss`, `random.sample`) reads the n-th element of the stream, so a
fixed stream is exactly a fixed random-number sequence.  Rational division is
total (`x / 0 = 0`); the claims that involve division assume positive
capacities, matching the source's caller contract.
-/

attribute [local semireducible] Rat.mul Rat.add Rat.sub Rat.inv

/-- One primitive draw of the ambient random source: `rr` is the result of a
`random.random()` call, `rg` of a `random.gauss(0, 1)` call, `rs` of a
`random.sample(range(n), 2)` call (a pair of indices). -/
inductive RDraw where
  | rr (q : ℚ)
  | rg (q : ℚ)
  | rs (j k : Nat)

/-- A fixed random-number sequence: the value consumed by the n-th primitive
call of the `random` module during the run. -/
abbrev RStream := Nat → RDraw

/-- `random.random()`: consume one draw, return its value (a stream position
holding a draw of the wrong kind yields 0; well-formed streams are typed per
position). -/
def randRandom (g : RStream) (ix : Nat) : ℚ × Nat :=
  (match g ix with | RDraw.rr q => q | _ => 0, ix + 1)

/-- `random.gauss(0, 1)`: consume one draw; the drawn value ranges over all
of ℚ (a Gaussian is unbounded). -/
def randGauss (g : RStream) (ix : Nat) : ℚ × Nat :=
  (match g ix with | RDraw.rg q => q | _ => 0, ix + 1)

/-- `random.sample(range(n), 2)`: consume one draw holding a pair of indices;
indices are reduced mod `n` so that a well-formed draw stays a valid index. -/
def randSample (g : RStream) (n ix : Nat) : (Nat × Nat) × Nat :=
  (match g ix with | RDraw.rs j k => (j % n, k % n) | _ => (0, 1 % n), ix + 1)

/-- `random.uniform(a, b)`, which CPython computes as
`a + (b - a) * random.random()`; note this formula is also what runs when
`a > b` (no validation). -/
def randUniform (g : RStream) (a b : ℚ) (ix : Nat) : ℚ × Nat :=
  (a + (b - a) * (randRandom g ix).1, ix + 1)

/-- The scalar and vector workload parameters of `calculate_energy_total`,
fixed for a run (source lines 5-9: `L_epm, L_cpm, P_epm, P_prime_epm, C_epm,
P_cpm, P_prime_cpm, C_cpm, V_du, V_cu, alpha, beta, T`). -/
structure EnergyParams where
  L_epm : List ℚ
  L_cpm : List ℚ
  P_epm : ℚ
  P_prime_epm : ℚ
  C_epm : ℚ
  P_cpm : ℚ
  P_prime_cpm : ℚ
  C_cpm : ℚ
  V_du : List ℚ
  V_cu : List ℚ
  alpha : ℚ
  beta : ℚ
  T : ℚ

/-- Processing energy of one unit class (source lines 39-46):
`np.sum((L > 0) * P + P_prime * (L / C)) * T`.  The numpy boolean `(L > 0)`
multiplies as 1 for true and 0 for false. -/
def processingE (L : List ℚ) (Pst Pdyn C T : ℚ) : ℚ :=
  ((L.map (fun l => (if 0 < l then (1 : ℚ) else 0) * Pst + Pdyn * (l / C))).sum) * T

/-- Class-E migration energy (source lines 49-52):
`np.sum((1 - A_t[:-1]) * A_t[1:] * (alpha * V_du + beta))` when `A_t` has
more than one row, else 0.  `A_t` here is the 1-D candidate, which the source
reshapes to an `n × 1` column, so its rows are its entries; the broadcast of
the `(m-1) × 1` transition column against the vector `alpha * V_du + beta`
sums to the product of the two sums. -/
def migrationEpm (A V : List ℚ) (alpha beta : ℚ) : ℚ :=
  if 1 < A.length then
    ((A.zip A.tail).map (fun pr => (1 - pr.1) * pr.2)).sum
      * ((V.map (fun v => alpha * v + beta)).sum)
  else 0

/-- One consecutive-row contribution to the class-C migration energy:
`(1 - B_t[t-1]) * B_t[t] * (alpha * V_cu[:cols] + beta)` summed over the
columns (the volume vector is truncated to the column count, source line 56). -/
def migRow (r0 r1 V : List ℚ) (alpha beta : ℚ) : ℚ :=
  (((r0.zip r1).zip V).map (fun z => (1 - z.1.1) * z.1.2 * (alpha * z.2 + beta))).sum

/-- Class-C migration energy (source lines 55-58): the transition rule of
`migRow` summed over all consecutive row pairs of `B_t` when `B_t` has more
than one row, else 0. -/
def migrationCpm (B : List (List ℚ)) (V : List ℚ) (alpha beta : ℚ) : ℚ :=
  if 1 < B.length then
    ((B.zip B.tail).map (fun pr => migRow pr.1 pr.2 V alpha beta)).sum
  else 0

/-- Total energy (source lines 34-67): the sum of the two processing terms
and the two migration terms.  `S_t` is a parameter of the source function but
is never read. -/
def calculate_energy_total (A_t : List ℚ) (B_t S_t : List (List ℚ)) (p : EnergyParams) : ℚ :=
  processingE p.L_epm p.P_epm p.P_prime_epm p.C_epm p.T
    + processingE p.L_cpm p.P_cpm p.P_prime_cpm p.C_cpm p.T
    + migrationEpm A_t p.V_du p.alpha p.beta
    + migrationCpm B_t p.V_cu p.alpha p.beta

/-- `np.clip(x, lo, hi) = np.minimum(hi, np.maximum(x, lo))` on one scalar. -/
def clip (x lo hi : ℚ) : ℚ := min hi (max x lo)

/-- Source line 115: clip each dimension of an individual to its bounds pair. -/
def clipVec (x : List ℚ) (bounds : List (ℚ × ℚ)) : List ℚ :=
  List.zipWith (fun xi b => clip xi b.1 b.2) x bounds

/-- Source line 84, inner comprehension: one individual, a uniform draw per
bounds pair in order. -/
def initIndividual (g : RStream) : List (ℚ × ℚ) → Nat → List ℚ × Nat
  | [], ix => ([], ix)
  | b :: bs, ix =>
    let r := randUniform g b.1 b.2 ix
    let rest := initIndividual g bs r.2
    (r.1 :: rest.1, rest.2)

/-- Source line 84, outer comprehension: `population_size` individuals drawn
in order. -/
def initPopulation (g : RStream) (bounds : List (ℚ × ℚ)) : Nat → Nat → List (List ℚ) × Nat
  | 0, ix => ([], ix)
  | c + 1, ix =>
    let ind := initIndividual g bounds ix
    let rest := initPopulation g bounds c ind.2
    (ind.1 :: rest.1, rest.2)

/-- One left-to-right pass tracking the running minimum value and the index
of its first occurrence (`bv` current minimum, `bi` its index, `ci` index of
the head of the remaining list). -/
def argminAux : List ℚ → ℚ → Nat → Nat → ℚ × Nat
  | [], bv, bi, _ => (bv, bi)
  | x :: xs, bv, bi, ci =>
    if x < bv then argminAux xs x ci (ci + 1) else argminAux xs bv bi (ci + 1)

/-- Python `min(fitness)`: the minimum value of the list (0 on the empty
list, on which Python raises; the claims keep the list nonempty). -/
def listMin : List ℚ → ℚ
  | [] => 0
  | x :: xs => (argminAux xs x 0 1).1

/-- `np.argmin(fitness)`: the index of the first occurrence of the minimum. -/
def argminList : List ℚ → Nat
  | [] => 0
  | x :: xs => (argminAux xs x 0 1).2

/-- The optimizer's mutable per-run state: the population, its index-aligned
fitness list, the global best record, and the convergence list. -/
structure FPAState where
  population : List (List ℚ)
  fitness : List ℚ
  best_solution : List ℚ
  best_fitness : ℚ
  convergence : List ℚ

/-- Source lines 103-115, body for one individual `i`: with probability 0.8
(a `random.random()` draw below 4/5) take a global-pollination step
`x + L * (x - best)` with `L` a Gaussian draw; otherwise draw `epsilon` and a
pair of indices and take a local step `x + epsilon * (pop[j] - pop[k])`; in
both cases clip the result to the bounds and write it back at index `i`
(rebinding the slot to a fresh vector, as the source does). -/
def updateIndividual (g : RStream) (bounds : List (ℚ × ℚ)) (best : List ℚ) (P : Nat)
    (pop : List (List ℚ)) (i ix : Nat) : List (List ℚ) × Nat :=
  let r := randRandom g ix
  if r.1 < 4 / 5 then
    let Lg := randGauss g r.2
    let xi := pop.getD i []
    let newxi := List.zipWith (fun a b => a + Lg.1 * (a - b)) xi best
    (pop.set i (clipVec newxi bounds), Lg.2)
  else
    let eps := randRandom g r.2
    let jk := randSample g P eps.2
    let xi := pop.getD i []
    let xj := pop.getD jk.1.1 []
    let xk := pop.getD jk.1.2 []
    let newxi := List.zipWith (fun a b => a + b) xi
      (List.zipWith (fun a b => eps.1 * (a - b)) xj xk)
    (pop.set i (clipVec newxi bounds), jk.2)

/-- Source line 103, `for i in range(population_size)`: apply
`updateIndividual` at indices `i, i+1, ...` for `fuel` steps; later
individuals see the already-updated population, as in the source. -/
def pollinateFrom (g : RStream) (bounds : List (ℚ × ℚ)) (best : List ℚ) (P : Nat) :
    Nat → List (List ℚ) → Nat → Nat → List (List ℚ) × Nat
  | 0, pop, _, ix => (pop, ix)
  | fuel + 1, pop, i, ix =>
    let r := updateIndividual g bounds best P pop i ix
    pollinateFrom g bounds best P fuel r.1 (i + 1) r.2

/-- Source lines 102-129, one generation: perturb and clip every individual,
recompute the fitness list, replace the global best only on a strict
improvement of the generation minimum, and append the (possibly unchanged)
best fitness to the convergence list. -/
def generationStep (g : RStream) (bounds : List (ℚ × ℚ)) (B S : List (List ℚ))
    (p : EnergyParams) (P : Nat) (st : FPAState) (ix : Nat) : FPAState × Nat :=
  let r := pollinateFrom g bounds st.best_solution P P st.population 0 ix
  let fit := r.1.map (fun A => calculate_energy_total A B S p)
  let cb := listMin fit
  if cb < st.best_fitness then
    ({ population := r.1, fitness := fit,
       best_solution := r.1.getD (argminList fit) [],
       best_fitness := cb,
       convergence := st.convergence ++ [cb] }, r.2)
  else
    ({ population := r.1, fitness := fit,
       best_solution := st.best_solution,
       best_fitness := st.best_fitness,
       convergence := st.convergence ++ [st.best_fitness] }, r.2)

/-- `for generation in range(max_generations)`: exactly `n` generation steps. -/
def fpaLoop (g : RStream) (bounds : List (ℚ × ℚ)) (B S : List (List ℚ))
    (p : EnergyParams) (P : Nat) : Nat → FPAState → Nat → FPAState × Nat
  | 0, st, ix => (st, ix)
  | n + 1, st, ix =>
    let r := generationStep g bounds B S p P st ix
    fpaLoop g bounds B S p P n r.1 r.2

/-- Source lines 83-129 as a state transformer: initialize the population,
build the fixed matrices `B_t = np.zeros((len(population[0]), 1))` and
`S_t = np.ones((len(population[0]), 1))`, evaluate the initial fitness, seed
the global best and the convergence list, and run `max_generations`
generation steps. -/
def fpaRun (g : RStream) (max_generations population_size : Nat)
    (bounds : List (ℚ × ℚ)) (p : EnergyParams) : FPAState :=
  let ip := initPopulation g bounds population_size 0
  let n := (ip.1.headD []).length
  let B := List.replicate n ([(0 : ℚ)])
  let S := List.replicate n ([(1 : ℚ)])
  let fit := ip.1.map (fun A => calculate_energy_total A B S p)
  let st0 : FPAState :=
    { population := ip.1, fitness := fit,
      best_solution := ip.1.getD (argminList fit) [],
      best_fitness := listMin fit,
      convergence := [listMin fit] }
  (fpaLoop g bounds B S p population_size max_generations st0 ip.2).1

/-- Source lines 69-141: the optimizer's entry point; line 141
`return best_solution, best_fitness` returns the pair of the final global
best and its fitness (the convergence list is consumed by plotting only). -/
def flower_pollination_algorithm (g : RStream) (max_generations population_size : Nat)
    (bounds : List (ℚ × ℚ)) (p : EnergyParams) : List ℚ × ℚ :=
  ((fpaRun g max_generations population_size bounds p).best_solution,
   (fpaRun g max_generations population_size bounds p).best_fitness)

/-- Non-negativity hypotheses on the workload parameters: loads, static and
dynamic power draws, migration volumes, `alpha`, `beta` and `T` are
non-negative and both capacities are positive. -/
def EnergyParamsNonneg (p : EnergyParams) : Prop :=
  (∀ l ∈ p.L_epm, 0 ≤ l) ∧ (∀ l ∈ p.L_cpm, 0 ≤ l)
    ∧ 0 ≤ p.P_epm ∧ 0 ≤ p.P_prime_epm ∧ 0 < p.C_epm
    ∧ 0 ≤ p.P_cpm ∧ 0 ≤ p.P_prime_cpm ∧ 0 < p.C_cpm
    ∧ (∀ v ∈ p.V_du, 0 ≤ v) ∧ (∀ v ∈ p.V_cu, 0 ≤ v)
    ∧ 0 ≤ p.alpha ∧ 0 ≤ p.beta ∧ 0 ≤ p.T

instance (p : EnergyParams) : Decidable (EnergyParamsNonneg p) := by
  unfold EnergyParamsNonneg; infer_instance

theorem processingE_nonneg (L : List ℚ) (Pst Pdyn C T : ℚ)
    (hL : ∀ l ∈ L, 0 ≤ l) (h1 : 0 ≤ Pst) (h2 : 0 ≤ Pdyn) (h3 : 0 ≤ C) (h4 : 0 ≤ T) :
    0 ≤ processingE L Pst Pdyn C T := by
  unfold processingE
  apply mul_nonneg _ h4
  apply List.sum_nonneg
  intro x hx
  obtain ⟨l, hl, rfl⟩ := List.mem_map.mp hx
  apply add_nonneg
  · apply mul_nonneg _ h1
    split <;> norm_num
  · exact mul_nonneg h2 (div_nonneg (hL l hl) h3)

theorem migrationEpm_nonneg (A V : List ℚ) (a b : ℚ)
    (hA : ∀ x ∈ A, 0 ≤ x ∧ x ≤ 1) (hV : ∀ v ∈ V, 0 ≤ v)
    (ha : 0 ≤ a) (hb : 0 ≤ b) : 0 ≤ migrationEpm A V a b := by
  unfold migrationEpm
  split
  · apply mul_nonneg
    · apply List.sum_nonneg
      intro x hx
      obtain ⟨⟨u, w⟩, hpr, rfl⟩ := List.mem_map.mp hx
      have hu := hA u (List.of_mem_zip hpr).1
      have hw := hA w (List.mem_of_mem_tail (List.of_mem_zip hpr).2)
      exact mul_nonneg (by linarith [hu.2]) hw.1
    · apply List.sum_nonneg
      intro x hx
      obtain ⟨v, hv, rfl⟩ := List.mem_map.mp hx
      exact add_nonneg (mul_nonneg ha (hV v hv)) hb
  · exact le_refl 0

theorem migRow_nonneg (r0 r1 V : List ℚ) (a b : ℚ)
    (h0 : ∀ x ∈ r0, 0 ≤ x ∧ x ≤ 1) (h1 : ∀ x ∈ r1, 0 ≤ x ∧ x ≤ 1)
    (hV : ∀ v ∈ V, 0 ≤ v) (ha : 0 ≤ a) (hb : 0 ≤ b) : 0 ≤ migRow r0 r1 V a b := by
  unfold migRow
  apply List.sum_nonneg
  intro x hx
  obtain ⟨⟨⟨u, w⟩, v⟩, hz, rfl⟩ := List.mem_map.mp hx
  have hz1 := (List.of_mem_zip hz).1
  have hv := (List.of_mem_zip hz).2
  have hu := h0 u (List.of_mem_zip hz1).1
  have hw := h1 w (List.of_mem_zip hz1).2
  exact mul_nonneg (mul_nonneg (by linarith [hu.2]) hw.1)
    (add_nonneg (mul_nonneg ha (hV v hv)) hb)

theorem migrationCpm_nonneg (B : List (List ℚ)) (V : List ℚ) (a b : ℚ)
    (hB : ∀ r ∈ B, ∀ x ∈ r, 0 ≤ x ∧ x ≤ 1) (hV : ∀ v ∈ V, 0 ≤ v)
    (ha : 0 ≤ a) (hb : 0 ≤ b) : 0 ≤ migrationCpm B V a b := by
  unfold migrationCpm
  split
  · apply List.sum_nonneg
    intro x hx
    obtain ⟨⟨r0, r1⟩, hpr, rfl⟩ := List.mem_map.mp hx
    exact migRow_nonneg r0 r1 V a b (hB r0 (List.of_mem_zip hpr).1)
      (hB r1 (List.mem_of_mem_tail (List.of_mem_zip hpr).2)) hV ha hb
  · exact le_refl 0

/-- Parameter set of the C2 counterexample: all components non-negative,
capacities positive, empty load vectors, `alpha = 0`, `beta = 1`, `T = 0`. -/
def pC2cex : EnergyParams :=
  { L_epm := [], L_cpm := [], P_epm := 0, P_prime_epm := 0, C_epm := 1,
    P_cpm := 0, P_prime_cpm := 0, C_cpm := 1, V_du := [0], V_cu := [0],
    alpha := 0, beta := 1, T := 0 }

/-- Claim C2, counterexample: the candidate `[2, 1]`, the migration context
`[[0]]` and the parameter set `pC2cex` have only non-negative components and
positive capacities, yet `calculate_energy_total` returns `-1 < 0`: the
class-E migration factor `(1 - A_t[t-1])` is negative once a candidate entry
exceeds 1, so non-negativity of the inputs alone does not bound the result
below by 0. -/
theorem energy_negative_on_nonneg_inputs :
    (∀ a ∈ ([2, 1] : List ℚ), 0 ≤ a)
    ∧ (∀ r ∈ ([[0]] : List (List ℚ)), ∀ x ∈ r, 0 ≤ x)
    ∧ EnergyParamsNonneg pC2cex
    ∧ calculate_energy_total [2, 1] [[0]] [[1]] pC2cex = -1 := by
  refine ⟨by decide, by decide, by decide, ?_⟩
  decide

/-- Claim C2, amended: the evaluator returns a non-negative value when, in
addition to non-negative workload parameters and positive capacities, every
entry of the candidate and of the migration context lies in the association
range `[0, 1]` (the range the optimizer's bounds enforce in the example
scenario). -/
theorem calculate_energy_total_nonneg (A : List ℚ) (B S : List (List ℚ)) (p : EnergyParams)
    (hA : ∀ a ∈ A, 0 ≤ a ∧ a ≤ 1)
    (hB : ∀ r ∈ B, ∀ x ∈ r, 0 ≤ x ∧ x ≤ 1)
    (hp : EnergyParamsNonneg p) :
    0 ≤ calculate_energy_total A B S p := by
  obtain ⟨h1, h2, h3, h4, h5, h6, h7, h8, h9, h10, h11, h12, h13⟩ := hp
  unfold calculate_energy_total
  have hpe := processingE_nonneg p.L_epm p.P_epm p.P_prime_epm p.C_epm p.T h1 h3 h4 h5.le h13
  have hpc := processingE_nonneg p.L_cpm p.P_cpm p.P_prime_cpm p.C_cpm p.T h2 h6 h7 h8.le h13
  have hme := migrationEpm_nonneg A p.V_du p.alpha p.beta hA h9 h11 h12
  have hmc := migrationCpm_nonneg B p.V_cu p.alpha p.beta hB h10 h11 h12
  linarith

/-- Witness for `calculate_energy_total_nonneg` at a concrete input. -/
theorem calculate_energy_total_nonneg_witness :
    (∀ a ∈ ([0, 1] : List ℚ), 0 ≤ a ∧ a ≤ 1)
    ∧ (∀ r ∈ ([[0]] : List (List ℚ)), ∀ x ∈ r, 0 ≤ x ∧ x ≤ 1)
    ∧ EnergyParamsNonneg pC2cex
    ∧ 0 ≤ calculate_energy_total [0, 1] [[0]] [[1]] pC2cex :=
  ⟨by decide, by decide, by decide,
    calculate_energy_total_nonneg [0, 1] [[0]] [[1]] pC2cex (by decide) (by decide) (by decide)⟩

/-- Parameter set of the C6 scenario: `alpha = 1/2`, `beta = 10`, class-E
migration volume vector `[5]`, empty loads so only migration contributes. -/
def pC6 : EnergyParams :=
  { L_epm := [], L_cpm := [], P_epm := 0, P_prime_epm := 0, C_epm := 1,
    P_cpm := 0, P_prime_cpm := 0, C_cpm := 1, V_du := [5], V_cu := [5],
    alpha := 1 / 2, beta := 10, T := 1 }

/-- Claim C6: for the two-row candidate `[0, 1]` with `alpha = 1/2`,
`beta = 10` and class-E migration volume `5`, the class-E migration term of
`calculate_energy_total` equals `(1 - 0) * 1 * (1/2 * 5 + 10) = 25/2`; for
the two-row candidate `[1, 1]` (no 0-to-1 transition) it equals 0.  The last
two conjuncts check the same values through `calculate_energy_total` itself
with all other terms zeroed. -/
theorem migration_term_activation :
    migrationEpm [0, 1] [5] (1 / 2) 10 = 25 / 2
    ∧ migrationEpm [1, 1] [5] (1 / 2) 10 = 0
    ∧ calculate_energy_total [0, 1] [[0]] [[1]] pC6 = 25 / 2
    ∧ calculate_energy_total [1, 1] [[0]] [[1]] pC6 = 0 := by
  decide

/-- Claim C10: the parameter `S_t` of `calculate_energy_total` is never read,
so the result is identical for any two values of `S_t`. -/
theorem energy_ignores_S_matrix (A : List ℚ) (B S S' : List (List ℚ)) (p : EnergyParams) :
    calculate_energy_total A B S p = calculate_energy_total A B S' p := rfl

/-- Claim C7: the optimizer is a pure function of the random-number sequence
and its inputs, so two runs with the same fixed sequence and identical
inputs return the same pair and pass through the same final state
(population, fitness list, best record and convergence history). -/
theorem fpa_deterministic (g g' : RStream) (mg mg' P P' : Nat)
    (bounds bounds' : List (ℚ × ℚ)) (p p' : EnergyParams)
    (hg : g = g') (hmg : mg = mg') (hP : P = P') (hb : bounds = bounds') (hp : p = p') :
    flower_pollination_algorithm g mg P bounds p
      = flower_pollination_algorithm g' mg' P' bounds' p'
    ∧ fpaRun g mg P bounds p = fpaRun g' mg' P' bounds' p' := by
  subst hg; subst hmg; subst hP; subst hb; subst hp
  exact ⟨rfl, rfl⟩

/-- Stream for the C7 witness. -/
def gC7 : RStream := fun _ => RDraw.rr (1 / 2)

/-- Parameter set for the C7 witness. -/
def pC7 : EnergyParams :=
  { L_epm := [], L_cpm := [], P_epm := 0, P_prime_epm := 0, C_epm := 1,
    P_cpm := 0, P_prime_cpm := 0, C_cpm := 1, V_du := [1], V_cu := [1],
    alpha := 1, beta := 0, T := 1 }

/-- Witness for `fpa_deterministic` at a concrete input. -/
theorem fpa_deterministic_witness :
    flower_pollination_algorithm gC7 1 1 [(0, 1)] pC7
      = flower_pollination_algorithm gC7 1 1 [(0, 1)] pC7
    ∧ fpaRun gC7 1 1 [(0, 1)] pC7 = fpaRun gC7 1 1 [(0, 1)] pC7 :=
  fpa_deterministic gC7 gC7 1 1 1 1 [(0, 1)] [(0, 1)] pC7 pC7 rfl rfl rfl rfl rfl

theorem migRow_zero (V : List ℚ) (a b : ℚ) : migRow [0] [0] V a b = 0 := by
  cases V <;> simp [migRow]

theorem migrationCpm_zeros (n : Nat) (V : List ℚ) (a b : ℚ) :
    migrationCpm (List.replicate n [(0 : ℚ)]) V a b = 0 := by
  unfold migrationCpm
  split
  · apply List.sum_eq_zero
    intro x hx
    obtain ⟨⟨r0, r1⟩, hpr, rfl⟩ := List.mem_map.mp hx
    have hr0 := List.eq_of_mem_replicate (List.of_mem_zip hpr).1
    have hr1 := List.eq_of_mem_replicate
      (List.mem_of_mem_tail (List.of_mem_zip hpr).2)
    simp only at hr0 hr1
    rw [hr0, hr1, migRow_zero]
  · rfl

/-- Claim C8: the two processing terms of `calculate_energy_total` do not
depend on the candidate, so two evaluations that differ only in the
candidate (and in the unused `S_t`) differ exactly by the difference of
their class-E migration terms; the class-C migration term of the optimizer's
fixed all-zero `B_t` is 0, so along a run the fitness of a candidate is the
constant processing energy plus its class-E migration term. -/
theorem energy_candidate_dependence (p : EnergyParams) (A A' : List ℚ)
    (B S S' : List (List ℚ)) (n : Nat) :
    calculate_energy_total A B S p - calculate_energy_total A' B S' p
      = migrationEpm A p.V_du p.alpha p.beta - migrationEpm A' p.V_du p.alpha p.beta
    ∧ migrationCpm (List.replicate n [(0 : ℚ)]) p.V_cu p.alpha p.beta = 0
    ∧ calculate_energy_total A (List.replicate n [(0 : ℚ)]) S p
        = processingE p.L_epm p.P_epm p.P_prime_epm p.C_epm p.T
          + processingE p.L_cpm p.P_cpm p.P_prime_cpm p.C_cpm p.T
          + migrationEpm A p.V_du p.alpha p.beta := by
  refine ⟨?_, migrationCpm_zeros n p.V_cu p.alpha p.beta, ?_⟩
  · unfold calculate_energy_total
    ring
  · unfold calculate_energy_total
    rw [migrationCpm_zeros]
    ring

theorem initPopulation_length (g : RStream) (bounds : List (ℚ × ℚ)) (c ix : Nat) :
    (initPopulation g bounds c ix).1.length = c := by
  induction c generalizing ix with
  | zero => rfl
  | succ c ih => simp [initPopulation, ih]

theorem generationStep_convergence_length (g : RStream) (bounds : List (ℚ × ℚ))
    (B S : List (List ℚ)) (p : EnergyParams) (P : Nat) (st : FPAState) (ix : Nat) :
    ((generationStep g bounds B S p P st ix).1).convergence.length
      = st.convergence.length + 1 := by
  simp only [generationStep]
  split <;> simp

theorem fpaLoop_convergence_length (g : RStream) (bounds : List (ℚ × ℚ))
    (B S : List (List ℚ)) (p : EnergyParams) (P : Nat) (n : Nat) (st : FPAState) (ix : Nat) :
    ((fpaLoop g bounds B S p P n st ix).1).convergence.length
      = st.convergence.length + n := by
  induction n generalizing st ix with
  | zero => rfl
  | succ n ih =>
    simp only [fpaLoop]
    rw [ih, generationStep_convergence_length]
    omega

/-- Stream of the zero-generation run in the C1 counterexample. -/
def gC1a : RStream := fun _ => RDraw.rr (1 / 2)

/-- Stream of the one-generation run in the C1 counterexample: same initial
uniform draw, then a global-pollination branch draw and a Gaussian step of 0,
so the single individual does not move. -/
def gC1b : RStream := fun i =>
  if i = 0 then RDraw.rr (1 / 2) else if i = 1 then RDraw.rr 0 else RDraw.rg 0

/-- Parameter set of the C1 counterexample. -/
def pC1 : EnergyParams :=
  { L_epm := [], L_cpm := [], P_epm := 0, P_prime_epm := 0, C_epm := 1,
    P_cpm := 0, P_prime_cpm := 0, C_cpm := 1, V_du := [1], V_cu := [1],
    alpha := 1, beta := 0, T := 1 }

/-- Claim C1, counterexample: the source's line 141 returns only
`best_solution, best_fitness`, not a triple that includes the convergence
history.  Concretely, a zero-generation run and a one-generation run shown
here produce the same returned value while their convergence histories
differ (`[0]` versus `[0, 0]`); if the returned value contained the
convergence history as a third component, equal returns would force equal
histories. -/
theorem fpa_return_omits_convergence :
    flower_pollination_algorithm gC1a 0 1 [(0, 1)] pC1
      = flower_pollination_algorithm gC1b 1 1 [(0, 1)] pC1
    ∧ (fpaRun gC1a 0 1 [(0, 1)] pC1).convergence
        ≠ (fpaRun gC1b 1 1 [(0, 1)] pC1).convergence := by
  decide

/-- Claim C1, amended: for every call the optimizer terminates after exactly
`max_generations` generation steps, returning the pair
`(best_candidate, best_fitness)`; the convergence history is kept internally
(it is consumed by plotting) and holds exactly `max_generations + 1` entries,
one initial entry plus one appended per completed generation. -/
theorem fpa_terminates_with_pair_and_history (g : RStream) (mg P : Nat)
    (bounds : List (ℚ × ℚ)) (p : EnergyParams) :
    flower_pollination_algorithm g mg P bounds p
      = ((fpaRun g mg P bounds p).best_solution, (fpaRun g mg P bounds p).best_fitness)
    ∧ (fpaRun g mg P bounds p).convergence.length = mg + 1 := by
  refine ⟨rfl, ?_⟩
  simp only [fpaRun]
  rw [fpaLoop_convergence_length]
  simp [Nat.add_comm]

/-- Stream of the C5 counterexample and witness. -/
def gC5 : RStream := fun _ => RDraw.rr (1 / 2)

/-- Parameter set of the C5 counterexample and witness. -/
def pC5 : EnergyParams :=
  { L_epm := [], L_cpm := [], P_epm := 0, P_prime_epm := 0, C_epm := 1,
    P_cpm := 0, P_prime_cpm := 0, C_cpm := 1, V_du := [1], V_cu := [1],
    alpha := 1, beta := 0, T := 1 }

/-- Claim C5, counterexample: for the invalid bounds list `[(1, 0)]` (low
exceeds high) the optimizer does not reject the call: a population is
initialized (via `uniform(1, 0) = 1 + (0 - 1) * u`, here `1/2`) and the
search runs to normal completion, returning `([1/2], 0)`.  The source
contains no bounds validation at all. -/
theorem fpa_runs_on_invalid_bounds :
    (∃ b ∈ ([((1 : ℚ), (0 : ℚ))] : List (ℚ × ℚ)), b.2 < b.1)
    ∧ initPopulation gC5 [(1, 0)] 1 0 = ([[1 / 2]], 1)
    ∧ flower_pollination_algorithm gC5 0 1 [(1, 0)] pC5 = ([1 / 2], 0) := by
  decide

/-- Claim C5, amended: the optimizer performs no bounds validation; on a
call whose bounds list is empty or contains a pair with `low > high` no
error is signalled: the population is still initialized (with
`population_size` individuals) and the search runs to completion, returning
the usual pair with a full convergence history of `max_generations + 1`
entries. -/
theorem fpa_no_bounds_validation (g : RStream) (mg P : Nat)
    (bounds : List (ℚ × ℚ)) (p : EnergyParams)
    (hinvalid : bounds = [] ∨ ∃ b ∈ bounds, b.2 < b.1) :
    (fpaRun g mg P bounds p).convergence.length = mg + 1
    ∧ flower_pollination_algorithm g mg P bounds p
        = ((fpaRun g mg P bounds p).best_solution, (fpaRun g mg P bounds p).best_fitness)
    ∧ (initPopulation g bounds P 0).1.length = P := by
  refine ⟨?_, rfl, initPopulation_length g bounds P 0⟩
  simp only [fpaRun]
  rw [fpaLoop_convergence_length]
  simp [Nat.add_comm]

/-- Witness for `fpa_no_bounds_validation` at a concrete invalid input. -/
theorem fpa_no_bounds_validation_witness :
    (([((1 : ℚ), (0 : ℚ))] : List (ℚ × ℚ)) = [] ∨ ∃ b ∈ ([((1 : ℚ), (0 : ℚ))] : List (ℚ × ℚ)), b.2 < b.1)
    ∧ ((fpaRun gC5 0 1 [(1, 0)] pC5).convergence.length = 0 + 1
      ∧ flower_pollination_algorithm gC5 0 1 [(1, 0)] pC5
          = ((fpaRun gC5 0 1 [(1, 0)] pC5).best_solution,
             (fpaRun gC5 0 1 [(1, 0)] pC5).best_fitness)
      ∧ (initPopulation gC5 [(1, 0)] 1 0).1.length = 1) :=
  ⟨by decide, fpa_no_bounds_validation gC5 0 1 [(1, 0)] pC5 (by decide)⟩

theorem generationStep_best_min (g : RStream) (bounds : List (ℚ × ℚ)) (B S : List (List ℚ))
    (p : EnergyParams) (P : Nat) (st : FPAState) (ix : Nat) :
    ((generationStep g bounds B S p P st ix).1).best_fitness
      = min st.best_fitness (listMin ((generationStep g bounds B S p P st ix).1).fitness)
    ∧ (((generationStep g bounds B S p P st ix).1).best_solution = st.best_solution
      ∨ ((generationStep g bounds B S p P st ix).1).best_fitness < st.best_fitness) := by
  simp only [generationStep]
  split
  next h =>
    constructor
    · exact (min_eq_right (le_of_lt h)).symm
    · exact Or.inr h
  next h =>
    constructor
    · exact (min_eq_left (not_lt.mp h)).symm
    · exact Or.inl rfl

theorem generationStep_chain (g : RStream) (bounds : List (ℚ × ℚ)) (B S : List (List ℚ))
    (p : EnergyParams) (P : Nat) (st : FPAState) (ix : Nat)
    (h1 : st.convergence.getLast? = some st.best_fitness)
    (h2 : List.Chain' (fun a b => b ≤ a) st.convergence) :
    ((generationStep g bounds B S p P st ix).1).convergence.getLast?
        = some ((generationStep g bounds B S p P st ix).1).best_fitness
    ∧ List.Chain' (fun a b => b ≤ a)
        ((generationStep g bounds B S p P st ix).1).convergence := by
  simp only [generationStep]
  split
  next h =>
    refine ⟨List.getLast?_concat _, ?_⟩
    rw [List.chain'_append]
    refine ⟨h2, List.chain'_singleton _, ?_⟩
    intro x hx y hy
    rw [h1, Option.mem_some_iff] at hx
    simp only [List.head?_cons, Option.mem_some_iff] at hy
    subst hx; subst hy
    exact le_of_lt h
  next _ =>
    refine ⟨List.getLast?_concat _, ?_⟩
    rw [List.chain'_append]
    refine ⟨h2, List.chain'_singleton _, ?_⟩
    intro x hx y hy
    rw [h1, Option.mem_some_iff] at hx
    simp only [List.head?_cons, Option.mem_some_iff] at hy
    subst hx; subst hy
    exact le_refl _

theorem fpaLoop_chain (g : RStream) (bounds : List (ℚ × ℚ)) (B S : List (List ℚ))
    (p : EnergyParams) (P : Nat) (n : Nat) :
    ∀ (st : FPAState) (ix : Nat),
      st.convergence.getLast? = some st.best_fitness →
      List.Chain' (fun a b => b ≤ a) st.convergence →
      ((fpaLoop g bounds B S p P n st ix).1).convergence.getLast?
          = some ((fpaLoop g bounds B S p P n st ix).1).best_fitness
      ∧ List.Chain' (fun a b => b ≤ a) ((fpaLoop g bounds B S p P n st ix).1).convergence := by
  induction n with
  | zero => exact fun st ix h1 h2 => ⟨h1, h2⟩
  | succ n ih =>
    intro st ix h1 h2
    obtain ⟨H1, H2⟩ := generationStep_chain g bounds B S p P st ix h1 h2
    exact ih _ _ H1 H2

/-- Claim C3: the convergence history of any run is non-increasing element
to element, and one generation step replaces the global best only on strict
improvement: the new best fitness is the minimum of the old best fitness and
the generation's minimum fitness, and either the best solution is unchanged
or the new best fitness is strictly below the old one. -/
theorem fpa_convergence_monotone (g : RStream) (mg P : Nat) (bounds : List (ℚ × ℚ))
    (p : EnergyParams) (B S : List (List ℚ)) (st : FPAState) (ix : Nat) :
    List.Chain' (fun a b => b ≤ a) (fpaRun g mg P bounds p).convergence
    ∧ ((generationStep g bounds B S p P st ix).1).best_fitness
        = min st.best_fitness (listMin ((generationStep g bounds B S p P st ix).1).fitness)
    ∧ (((generationStep g bounds B S p P st ix).1).best_solution = st.best_solution
      ∨ ((generationStep g bounds B S p P st ix).1).best_fitness < st.best_fitness) := by
  obtain ⟨hmin, hsol⟩ := generationStep_best_min g bounds B S p P st ix
  refine ⟨?_, hmin, hsol⟩
  simp only [fpaRun]
  refine (fpaLoop_chain g bounds _ _ p P mg _ _ ?_ ?_).2
  · rfl
  · exact List.chain'_singleton _

theorem getD_set_self {α : Type} (l : List α) (i : Nat) (a d : α) (h : i < l.length) :
    (l.set i a).getD i d = a := by
  induction l generalizing i with
  | nil => simp at h
  | cons x xs ih =>
    cases i with
    | zero => rfl
    | succ i =>
      simp only [List.set_cons_succ, List.getD_cons_succ]
      exact ih i (Nat.lt_of_succ_lt_succ h)

theorem getD_set_ne {α : Type} (l : List α) (i j : Nat) (a d : α) (h : i ≠ j) :
    (l.set i a).getD j d = l.getD j d := by
  induction l generalizing i j with
  | nil => simp
  | cons x xs ih =>
    cases i with
    | zero =>
      cases j with
      | zero => exact absurd rfl h
      | succ j => simp
    | succ i =>
      cases j with
      | zero => simp
      | succ j =>
        simp only [List.set_cons_succ, List.getD_cons_succ]
        exact ih i j (fun e => h (by rw [e]))

theorem clip_bounds (x lo hi : ℚ) (h : lo ≤ hi) : lo ≤ clip x lo hi ∧ clip x lo hi ≤ hi := by
  unfold clip
  exact ⟨le_min h (le_max_right x lo), min_le_left _ _⟩

theorem clip_projection (x lo hi : ℚ) (h : lo ≤ hi) :
    (x < lo → clip x lo hi = lo) ∧ (hi < x → clip x lo hi = hi)
    ∧ (lo ≤ x → x ≤ hi → clip x lo hi = x) := by
  unfold clip
  refine ⟨?_, ?_, ?_⟩
  · intro hx
    rw [max_eq_right hx.le, min_eq_right h]
  · intro hx
    rw [min_eq_left (le_trans hx.le (le_max_left x lo))]
  · intro hx1 hx2
    rw [max_eq_left hx1, min_eq_right hx2]

theorem clipVec_within (y : List ℚ) (bounds : List (ℚ × ℚ))
    (hb : ∀ b ∈ bounds, b.1 ≤ b.2) :
    (clipVec y bounds).length ≤ bounds.length
    ∧ ∀ pr ∈ (clipVec y bounds).zip bounds, pr.2.1 ≤ pr.1 ∧ pr.1 ≤ pr.2.2 := by
  induction y generalizing bounds with
  | nil =>
    constructor
    · simp [clipVec]
    · intro pr hpr
      simp [clipVec] at hpr
  | cons a ys ih =>
    cases bounds with
    | nil =>
      constructor
      · simp [clipVec]
      · intro pr hpr
        simp [clipVec] at hpr
    | cons b bs =>
      obtain ⟨ih1, ih2⟩ := ih bs (fun b' hb' => hb b' (List.mem_cons_of_mem _ hb'))
      constructor
      · simp only [clipVec, List.zipWith_cons_cons, List.length_cons]
        exact Nat.succ_le_succ ih1
      · intro pr hpr
        simp only [clipVec, List.zipWith_cons_cons, List.zip_cons_cons] at hpr
        rcases List.mem_cons.mp hpr with h | h
        · subst h
          exact clip_bounds a b.1 b.2 (hb b (List.mem_cons_self _ _))
        · exact ih2 pr h

theorem updateIndividual_shape (g : RStream) (bounds : List (ℚ × ℚ)) (best : List ℚ)
    (P : Nat) (pop : List (List ℚ)) (i ix : Nat) :
    ∃ y, (updateIndividual g bounds best P pop i ix).1 = pop.set i (clipVec y bounds) := by
  simp only [updateIndividual]
  split
  · exact ⟨_, rfl⟩
  · exact ⟨_, rfl⟩

theorem updateIndividual_length (g : RStream) (bounds : List (ℚ × ℚ)) (best : List ℚ)
    (P : Nat) (pop : List (List ℚ)) (i ix : Nat) :
    ((updateIndividual g bounds best P pop i ix).1).length = pop.length := by
  obtain ⟨y, hy⟩ := updateIndividual_shape g bounds best P pop i ix
  rw [hy, List.length_set]

theorem pollinateFrom_length (g : RStream) (bounds : List (ℚ × ℚ)) (best : List ℚ)
    (P : Nat) (fuel : Nat) :
    ∀ (pop : List (List ℚ)) (i ix : Nat),
      ((pollinateFrom g bounds best P fuel pop i ix).1).length = pop.length := by
  induction fuel with
  | zero => intro pop i ix; rfl
  | succ fuel ih =>
    intro pop i ix
    simp only [pollinateFrom]
    rw [ih]
    exact updateIndividual_length g bounds best P pop i ix

theorem pollinateFrom_getD_lt (g : RStream) (bounds : List (ℚ × ℚ)) (best : List ℚ)
    (P : Nat) (fuel : Nat) :
    ∀ (pop : List (List ℚ)) (i ix m : Nat), m < i →
      ((pollinateFrom g bounds best P fuel pop i ix).1).getD m []
        = pop.getD m [] := by
  induction fuel with
  | zero => intro pop i ix m _; rfl
  | succ fuel ih =>
    intro pop i ix m h
    simp only [pollinateFrom]
    rw [ih _ _ _ m (Nat.lt_succ_of_lt h)]
    obtain ⟨y, hy⟩ := updateIndividual_shape g bounds best P pop i ix
    rw [hy, getD_set_ne _ _ _ _ _ (Ne.symm (Nat.ne_of_lt h))]

theorem pollinateFrom_getD_clipped (g : RStream) (bounds : List (ℚ × ℚ)) (best : List ℚ)
    (P : Nat) (fuel : Nat) :
    ∀ (pop : List (List ℚ)) (i ix m : Nat), i ≤ m → m < i + fuel → m < pop.length →
      ∃ y, ((pollinateFrom g bounds best P fuel pop i ix).1).getD m []
        = clipVec y bounds := by
  induction fuel with
  | zero =>
    intro pop i ix m h1 h2 _
    exact absurd h2 (by omega)
  | succ fuel ih =>
    intro pop i ix m h1 h2 h3
    simp only [pollinateFrom]
    obtain ⟨y, hy⟩ := updateIndividual_shape g bounds best P pop i ix
    by_cases hm : m = i
    · subst hm
      refine ⟨y, ?_⟩
      rw [pollinateFrom_getD_lt g bounds best P fuel _ _ _ m (Nat.lt_succ_self m)]
      rw [hy, getD_set_self _ _ _ _ h3]
    · exact ih _ _ _ m (lt_of_le_of_ne h1 (Ne.symm hm)) (by omega)
        (by rw [updateIndividual_length]; exact h3)

theorem generationStep_population (g : RStream) (bounds : List (ℚ × ℚ))
    (B S : List (List ℚ)) (p : EnergyParams) (P : Nat) (st : FPAState) (ix : Nat) :
    ((generationStep g bounds B S p P st ix).1).population
      = (pollinateFrom g bounds st.best_solution P P st.population 0 ix).1 := by
  simp only [generationStep]
  split <;> rfl

theorem generationStep_pop_length (g : RStream) (bounds : List (ℚ × ℚ))
    (B S : List (List ℚ)) (p : EnergyParams) (P : Nat) (st : FPAState) (ix : Nat) :
    ((generationStep g bounds B S p P st ix).1).population.length
      = st.population.length := by
  rw [generationStep_population, pollinateFrom_length]

theorem generationStep_pop_clipped (g : RStream) (bounds : List (ℚ × ℚ))
    (B S : List (List ℚ)) (p : EnergyParams) (P : Nat) (st : FPAState) (ix : Nat)
    (h : st.population.length = P) :
    ∀ x ∈ ((generationStep g bounds B S p P st ix).1).population,
      ∃ y, x = clipVec y bounds := by
  intro x hx
  rw [generationStep_population] at hx
  obtain ⟨m, hm, rfl⟩ := List.mem_iff_getElem.mp hx
  have hlen : m < st.population.length := by
    rw [← pollinateFrom_length g bounds st.best_solution P P st.population 0 ix]
    exact hm
  obtain ⟨y, hy⟩ := pollinateFrom_getD_clipped g bounds st.best_solution P P
    st.population 0 ix m (Nat.zero_le m) (by omega) hlen
  refine ⟨y, ?_⟩
  rw [← List.getD_eq_getElem _ [] hm, hy]

theorem fpaLoop_pop_clipped (g : RStream) (bounds : List (ℚ × ℚ))
    (B S : List (List ℚ)) (p : EnergyParams) (P : Nat) (n : Nat) :
    ∀ (st : FPAState) (ix : Nat), st.population.length = P →
      ∀ x ∈ ((fpaLoop g bounds B S p P (n + 1) st ix).1).population,
        ∃ y, x = clipVec y bounds := by
  induction n with
  | zero =>
    intro st ix h x hx
    exact generationStep_pop_clipped g bounds B S p P st ix h x hx
  | succ n ih =>
    intro st ix h x hx
    exact ih _ _ (by rw [generationStep_pop_length]; exact h) x hx

/-- Claim C4: under valid bounds (`low ≤ high` in every pair), after any
generation every individual of the population has every dimension inside its
declared interval, positionally paired with the bounds list (and no more
dimensions than bounds); moreover the clip operator is a hard projection:
below-range proposals land exactly on the lower bound, above-range proposals
exactly on the upper bound, and in-range proposals are kept unchanged, for an
arbitrary (arbitrarily far out-of-range) proposal `x`. -/
theorem fpa_population_in_bounds (g : RStream) (mg P : Nat) (bounds : List (ℚ × ℚ))
    (p : EnergyParams) (hb : ∀ b ∈ bounds, b.1 ≤ b.2) (hmg : 1 ≤ mg) :
    (∀ x ∈ (fpaRun g mg P bounds p).population,
      x.length ≤ bounds.length
      ∧ ∀ pr ∈ x.zip bounds, pr.2.1 ≤ pr.1 ∧ pr.1 ≤ pr.2.2)
    ∧ ∀ x lo hi : ℚ, lo ≤ hi →
        ((x < lo → clip x lo hi = lo) ∧ (hi < x → clip x lo hi = hi)
          ∧ (lo ≤ x → x ≤ hi → clip x lo hi = x)) := by
  constructor
  · intro x hx
    obtain ⟨n', rfl⟩ : ∃ n', mg = n' + 1 := ⟨mg - 1, by omega⟩
    simp only [fpaRun] at hx
    obtain ⟨y, rfl⟩ := fpaLoop_pop_clipped g bounds _ _ p P n' _ _
      (initPopulation_length g bounds P 0) x hx
    exact clipVec_within y bounds hb
  · intro x lo hi h
    exact clip_projection x lo hi h

/-- Stream for the C4 witness: one init draw, one branch draw (global
pollination), one Gaussian step. -/
def gC4 : RStream := fun i => if i ≤ 1 then RDraw.rr (1 / 2) else RDraw.rg 0

/-- Parameter set for the C4 witness. -/
def pC4 : EnergyParams :=
  { L_epm := [], L_cpm := [], P_epm := 0, P_prime_epm := 0, C_epm := 1,
    P_cpm := 0, P_prime_cpm := 0, C_cpm := 1, V_du := [1], V_cu := [1],
    alpha := 1, beta := 0, T := 1 }

/-- Witness for `fpa_population_in_bounds` at a concrete input. -/
theorem fpa_population_in_bounds_witness :
    (∀ b ∈ ([((0 : ℚ), (1 : ℚ))] : List (ℚ × ℚ)), b.1 ≤ b.2) ∧ 1 ≤ 1
    ∧ ((∀ x ∈ (fpaRun gC4 1 1 [(0, 1)] pC4).population,
        x.length ≤ ([((0 : ℚ), (1 : ℚ))] : List (ℚ × ℚ)).length
        ∧ ∀ pr ∈ x.zip ([((0 : ℚ), (1 : ℚ))] : List (ℚ × ℚ)),
            pr.2.1 ≤ pr.1 ∧ pr.1 ≤ pr.2.2)
      ∧ ∀ x lo hi : ℚ, lo ≤ hi →
          ((x < lo → clip x lo hi = lo) ∧ (hi < x → clip x lo hi = hi)
            ∧ (lo ≤ x → x ≤ hi → clip x lo hi = x))) :=
  ⟨by decide, by decide,
    fpa_population_in_bounds gC4 1 1 [(0, 1)] pC4 (by decide) (by decide)⟩

theorem listGetD_append_left {α : Type} (l₁ l₂ : List α) (i : Nat) (d : α)
    (h : i < l₁.length) : (l₁ ++ l₂).getD i d = l₁.getD i d := by
  induction l₁ generalizing i with
  | nil => simp at h
  | cons x xs ih =>
    cases i with
    | zero => rfl
    | succ i =>
      simp only [List.cons_append, List.getD_cons_succ]
      exact ih i (Nat.lt_of_succ_lt_succ h)

theorem listGetD_append_length {α : Type} (l₁ : List α) (a : α) (l₂ : List α) (d : α) :
    (l₁ ++ a :: l₂).getD l₁.length d = a := by
  induction l₁ with
  | nil => rfl
  | cons x xs ih => simpa using ih

theorem argminAux_spec (xs : List ℚ) :
    ∀ (pre : List ℚ) (bv : ℚ) (bi : Nat), bi < pre.length → pre.getD bi 0 = bv →
      (argminAux xs bv bi pre.length).2 < (pre ++ xs).length
      ∧ (pre ++ xs).getD (argminAux xs bv bi pre.length).2 0
          = (argminAux xs bv bi pre.length).1 := by
  induction xs with
  | nil =>
    intro pre bv bi h1 h2
    simp only [argminAux, List.append_nil]
    exact ⟨h1, h2⟩
  | cons x xs ih =>
    intro pre bv bi h1 h2
    simp only [argminAux]
    by_cases hx : x < bv
    · rw [if_pos hx]
      have key := ih (pre ++ [x]) x pre.length
        (by simp) (listGetD_append_length pre x [] 0)
      simp only [List.length_append, List.length_singleton] at key
      rw [List.append_assoc, List.singleton_append] at key
      refine ⟨?_, key.2⟩
      have k1 := key.1
      simp only [List.length_append, List.length_cons]
      omega
    · rw [if_neg hx]
      have key := ih (pre ++ [x]) bv bi
        (by simp only [List.length_append, List.length_singleton]; omega)
        ((listGetD_append_left pre [x] bi 0 h1).trans h2)
      simp only [List.length_append, List.length_singleton] at key
      rw [List.append_assoc, List.singleton_append] at key
      refine ⟨?_, key.2⟩
      have k1 := key.1
      simp only [List.length_append, List.length_cons]
      omega

theorem argmin_spec (l : List ℚ) (h : l ≠ []) :
    argminList l < l.length ∧ l.getD (argminList l) 0 = listMin l := by
  cases l with
  | nil => exact absurd rfl h
  | cons x xs =>
    have key := argminAux_spec xs [x] x 0 (by simp) rfl
    simp only [List.length_singleton] at key
    rw [List.singleton_append] at key
    exact key

theorem listMin_map (pop : List (List ℚ)) (f : List ℚ → ℚ) (h : pop ≠ []) :
    listMin (pop.map f) = f (pop.getD (argminList (pop.map f)) []) := by
  have hm : pop.map f ≠ [] := fun e => h (List.map_eq_nil_iff.mp e)
  obtain ⟨h1, h2⟩ := argmin_spec (pop.map f) hm
  have hlt : argminList (pop.map f) < pop.length := by
    rw [← List.length_map pop f]
    exact h1
  rw [← h2, List.getD_eq_getElem _ _ h1, List.getElem_map, List.getD_eq_getElem _ _ hlt]

theorem initIndividual_length (g : RStream) (bounds : List (ℚ × ℚ)) :
    ∀ ix : Nat, ((initIndividual g bounds ix).1).length = bounds.length := by
  induction bounds with
  | nil => intro ix; rfl
  | cons b bs ih => intro ix; simp [initIndividual, ih]

theorem initPopulation_head_length (g : RStream) (bounds : List (ℚ × ℚ)) (c ix : Nat) :
    ((initPopulation g bounds (c + 1) ix).1.headD []).length = bounds.length := by
  simp only [initPopulation, List.headD_cons]
  exact initIndividual_length g bounds ix

theorem generationStep_bestInv (g : RStream) (bounds : List (ℚ × ℚ))
    (B S : List (List ℚ)) (p : EnergyParams) (P : Nat) (st : FPAState) (ix : Nat)
    (hpop : st.population.length = P) (hP : 1 ≤ P)
    (hinv : st.best_fitness = calculate_energy_total st.best_solution B S p) :
    ((generationStep g bounds B S p P st ix).1).best_fitness
      = calculate_energy_total
          ((generationStep g bounds B S p P st ix).1).best_solution B S p := by
  have hne : (pollinateFrom g bounds st.best_solution P P st.population 0 ix).1 ≠ [] := by
    apply List.length_pos.mp
    rw [pollinateFrom_length, hpop]
    omega
  simp only [generationStep]
  split
  next _ => exact listMin_map _ _ hne
  next _ => exact hinv

theorem fpaLoop_bestInv (g : RStream) (bounds : List (ℚ × ℚ)) (B S : List (List ℚ))
    (p : EnergyParams) (P : Nat) (n : Nat) :
    ∀ (st : FPAState) (ix : Nat), st.population.length = P → 1 ≤ P →
      st.best_fitness = calculate_energy_total st.best_solution B S p →
      ((fpaLoop g bounds B S p P n st ix).1).best_fitness
        = calculate_energy_total
            ((fpaLoop g bounds B S p P n st ix).1).best_solution B S p := by
  induction n with
  | zero => exact fun _ _ _ _ h3 => h3
  | succ n ih =>
    intro st ix h1 h2 h3
    exact ih _ _ (by rw [generationStep_pop_length]; exact h1) h2
      (generationStep_bestInv g bounds B S p P st ix h1 h2 h3)

/-- Claim C9: at return, the best fitness is exactly the evaluation of the
returned best solution against the run's fixed `B_t` (all-zero column),
`S_t` (all-one column) and workload parameters: in the source every
perturbation rebinds a population slot to a fresh clipped array, so the
recorded best candidate is never mutated after being recorded, and the best
record always pairs a candidate with its own fitness. -/
theorem fpa_best_fitness_consistent (g : RStream) (mg P : Nat)
    (bounds : List (ℚ × ℚ)) (p : EnergyParams) (hP : 1 ≤ P) :
    (fpaRun g mg P bounds p).best_fitness
      = calculate_energy_total (fpaRun g mg P bounds p).best_solution
          (List.replicate bounds.length [(0 : ℚ)])
          (List.replicate bounds.length [(1 : ℚ)]) p := by
  obtain ⟨c, rfl⟩ : ∃ c, P = c + 1 := ⟨P - 1, by omega⟩
  have hne : (initPopulation g bounds (c + 1) 0).1 ≠ [] := by
    apply List.length_pos.mp
    rw [initPopulation_length]
    omega
  simp only [fpaRun]
  rw [initPopulation_head_length]
  exact fpaLoop_bestInv g bounds _ _ p (c + 1) mg _ _
    (initPopulation_length g bounds (c + 1) 0) (by omega) (listMin_map _ _ hne)

/-- Stream for the C9 witness. -/
def gC9 : RStream := fun _ => RDraw.rr (1 / 2)

/-- Parameter set for the C9 witness: the hardcoded example scenario of the
source (lines 147-159). -/
def pC9 : EnergyParams :=
  { L_epm := [50, 60], L_cpm := [70, 80], P_epm := 200, P_prime_epm := 50, C_epm := 100,
    P_cpm := 300, P_prime_cpm := 60, C_cpm := 120, V_du := [5, 10], V_cu := [15, 20],
    alpha := 1 / 2, beta := 10, T := 1 }

/-- Witness for `fpa_best_fitness_consistent` at a concrete input. -/
theorem fpa_best_fitness_consistent_witness :
    1 ≤ 1
    ∧ (fpaRun gC9 0 1 [(0, 1), (0, 1)] pC9).best_fitness
        = calculate_energy_total (fpaRun gC9 0 1 [(0, 1), (0, 1)] pC9).best_solution
            (List.replicate ([((0 : ℚ), (1 : ℚ)), (0, 1)] : List (ℚ × ℚ)).length [(0 : ℚ)])
            (List.replicate ([((0 : ℚ), (1 : ℚ)), (0, 1)] : List (ℚ × ℚ)).length [(1 : ℚ)]) pC9 :=
  ⟨by decide, fpa_best_fitness_consistent gC9 0 1 [(0, 1), (0, 1)] pC9 (by decide)⟩

